import Mathlib

/-!
Verification of the ToF (Time of Flight) time-point store and duration
calculator.

The development shallowly embeds the core of the application:

* `calculateDurations`, `calculateTotalDuration` and the estimated-duration
  computation from `src/components/TimePointManager.tsx`;
* the store mutations `recordCurrentTime`, `addTimePoint`, `updateTimePoint`,
  `removeTimePoint`, `resetTimePoints` and the mode toggle from `src/App.tsx`.

Times are modelled as rationals (`ℚ`): the source works with JavaScript
numbers holding small decimal quantities of seconds, and every claim under
study is about exact small values, so `ℚ` is a faithful carrier.

JavaScript `[...array].sort((a, b) => a.time - b.time)` is a stable sort by
the `time` field (ECMAScript requires `Array.prototype.sort` to be stable).
A stable sort by a key is uniquely determined by its input, so we embed it as
the left-fold insertion sort `sortByTime` below, which places each element
after all previously placed elements of smaller-or-equal time.

`Date.now().toString()`, the id generator of both creation paths, is modelled
by threading an environment-supplied natural number `now` through the
operations and taking `toString now`: the environment may or may not supply
distinct values to consecutive calls, exactly as the millisecond clock may or
may not tick between them.
-/

/-- A marked instant: `id`, `time` (seconds) and free-text `label`
(interface `TimePoint` in `src/types`). -/
structure TimePoint where
  id : String
  time : ℚ
  label : String
deriving DecidableEq

/-- A derived pairing of two points (interface `DurationPair` in
`src/types`). -/
structure DurationPair where
  startId : String
  endId : String
  duration : ℚ
deriving DecidableEq

/-- Insert `p` after every element whose time is `≤ p.time`.  This is the
single step of the stable sort model. -/
def insertLE (p : TimePoint) : List TimePoint → List TimePoint
  | [] => [p]
  | q :: rest => if q.time ≤ p.time then q :: insertLE p rest else p :: q :: rest

/-- Stable sort by ascending `time`: the model of
`[...array].sort((a, b) => a.time - b.time)`.  Elements are inserted left to
right, and `insertLE` puts each one after all already placed elements of
smaller-or-equal time, so equal-time elements keep their original relative
order. -/
def sortByTime (l : List TimePoint) : List TimePoint :=
  l.foldl (fun acc p => insertLE p acc) []

/-- Pair the sorted sequence as `(0,1), (2,3), (4,5), …`, dropping a trailing
unpaired element: the loop body of `calculateDurations`
(`TimePointManager.tsx` lines 38-49). -/
def pairUp : List TimePoint → List DurationPair
  | p0 :: p1 :: rest =>
      { startId := p0.id, endId := p1.id, duration := p1.time - p0.time } :: pairUp rest
  | _ => []

/-- `calculateDurations` (`TimePointManager.tsx` lines 31-52): sort the
snapshot by time, then emit consecutive non-overlapping pairs. -/
def calculateDurations (timePoints : List TimePoint) : List DurationPair :=
  pairUp (sortByTime timePoints)

/-- `calculateTotalDuration` (`TimePointManager.tsx` lines 55-66): `0` for
fewer than two points; in advanced mode the reduce-sum of all pair durations;
in simple mode last-minus-first over the sorted sequence. -/
def calculateTotalDuration (isAdvancedMode : Bool) (timePoints : List TimePoint) : ℚ :=
  if timePoints.length < 2 then 0
  else if isAdvancedMode then
    (calculateDurations timePoints).foldl (fun total current => total + current.duration) 0
  else
    match sortByTime timePoints with
    | [] => 0
    | q :: rest => ((q :: rest).getLast (List.cons_ne_nil q rest)).time - q.time

/-- `const estimatedDuration = totalDuration * 0.78`
(`TimePointManager.tsx` line 71). -/
def estimatedDuration (totalDuration : ℚ) : ℚ :=
  totalDuration * 0.78

/-- The point built by `recordCurrentTime` (`App.tsx` lines 76-80):
id from the clock, label `"<n+1>"` with `n` the count before insertion. -/
def recordPoint (now : ℕ) (currentTime : ℚ) (timePoints : List TimePoint) : TimePoint :=
  { id := toString now, time := currentTime, label := toString (timePoints.length + 1) }

/-- `recordCurrentTime` (`App.tsx` lines 70-85): append the new point and
re-sort by time.  No capacity limit in either mode. -/
def recordOp (now : ℕ) (currentTime : ℚ) (timePoints : List TimePoint) : List TimePoint :=
  sortByTime (timePoints ++ [recordPoint now currentTime timePoints])

/-- The point built by `addTimePoint` (`App.tsx` lines 115-119): id from the
clock, caller label with fallback `"Point <n+1>"` when the label is empty
(JavaScript `label || ...` treats the empty string as falsy). -/
def addPoint (now : ℕ) (label : String) (currentTime : ℚ)
    (timePoints : List TimePoint) : TimePoint :=
  { id := toString now, time := currentTime,
    label := if label = "" then "Point " ++ toString (timePoints.length + 1) else label }

/-- `addTimePoint` (`App.tsx` lines 111-150).  Advanced mode: append and
re-sort.  Simple mode: 0 points makes the new point the sole element; 1 point
appends and sorts; 2 points keeps `timePoints[0]`, drops `timePoints[1]`, and
sorts in the new point; 3 or more points falls through every branch of the
source and changes nothing. -/
def addOp (isAdvancedMode : Bool) (now : ℕ) (label : String) (currentTime : ℚ)
    (timePoints : List TimePoint) : List TimePoint :=
  let newPoint := addPoint now label currentTime timePoints
  if isAdvancedMode then
    sortByTime (timePoints ++ [newPoint])
  else
    match timePoints with
    | [] => [newPoint]
    | [p] => sortByTime ([p] ++ [newPoint])
    | [p0, _] => sortByTime [p0, newPoint]
    | _ => timePoints

/-- `updateTimePoint` (`App.tsx` lines 223-227): map over the sequence,
replacing the label of every point whose id matches and its time only when a
new one is supplied (`time ?? point.time`).  No re-sort. -/
def updateOp (uid : String) (label : String) (newTime : Option ℚ)
    (timePoints : List TimePoint) : List TimePoint :=
  timePoints.map fun point =>
    if point.id = uid then { point with label := label, time := newTime.getD point.time }
    else point

/-- `removeTimePoint` (`App.tsx` lines 153-155): keep every point whose id
differs. -/
def removeOp (uid : String) (timePoints : List TimePoint) : List TimePoint :=
  timePoints.filter fun point => point.id ≠ uid

/-- The application state relevant to the store: the point sequence and the
mode flag (`App.tsx` lines 9-10). -/
structure AppState where
  timePoints : List TimePoint
  isAdvancedMode : Bool
deriving DecidableEq

/-- One externally triggered store operation, with the environment inputs
(clock value `now`, current playback time) it consumes. -/
inductive Op where
  | record (now : ℕ) (currentTime : ℚ)
  | add (now : ℕ) (label : String) (currentTime : ℚ)
  | update (uid : String) (label : String) (newTime : Option ℚ)
  | remove (uid : String)
  | reset
  | toggleMode
deriving DecidableEq

/-- The state transition of one operation. -/
def stepOp (s : AppState) : Op → AppState
  | .record now t => { s with timePoints := recordOp now t s.timePoints }
  | .add now label t =>
      { s with timePoints := addOp s.isAdvancedMode now label t s.timePoints }
  | .update uid label newTime =>
      { s with timePoints := updateOp uid label newTime s.timePoints }
  | .remove uid => { s with timePoints := removeOp uid s.timePoints }
  | .reset => { s with timePoints := [] }
  | .toggleMode => { s with isAdvancedMode := !s.isAdvancedMode }

/-- The initial state: empty store, simple mode (`App.tsx` lines 9-10). -/
def initialState : AppState := { timePoints := [], isAdvancedMode := false }

/-- Run a finite sequence of operations from the initial state.  A state is
reachable exactly when it is `runOps ops` for some `ops`. -/
def runOps (ops : List Op) : AppState :=
  ops.foldl stepOp initialState

/-- A trace restricted to the two creation entry paths, `record` and `add`,
with the mode flag each `add` call sees (the user may toggle the mode between
calls). -/
inductive RAOp where
  | record (now : ℕ) (currentTime : ℚ)
  | add (isAdvancedMode : Bool) (now : ℕ) (label : String) (currentTime : ℚ)
deriving DecidableEq

/-- The point a creation-path operation constructs from the current store. -/
def newPointRA (timePoints : List TimePoint) : RAOp → TimePoint
  | .record now t => recordPoint now t timePoints
  | .add _ now label t => addPoint now label t timePoints

/-- The store after one creation-path operation. -/
def applyRA (timePoints : List TimePoint) : RAOp → List TimePoint
  | .record now t => recordOp now t timePoints
  | .add isAdvancedMode now label t => addOp isAdvancedMode now label t timePoints

/-- The store after a finite creation-path trace from the empty store. -/
def runRA (ops : List RAOp) : List TimePoint :=
  ops.foldl applyRA []

/-- The points a creation-path trace constructs, in creation order (some of
them may later be dropped by the simple-mode capacity rule). -/
def creationsRA : List TimePoint → List RAOp → List TimePoint
  | _, [] => []
  | timePoints, op :: rest =>
      newPointRA timePoints op :: creationsRA (applyRA timePoints op) rest

/-- A finite sequence of simple-mode `add` calls (clock value, label, current
time), applied to the empty store. -/
def runAddsSimple (calls : List (ℕ × String × ℚ)) : List TimePoint :=
  calls.foldl (fun timePoints c => addOp false c.1 c.2.1 c.2.2 timePoints) []

open List

/-- The ordering invariant: the sequence is non-strictly ascending in
`time`. -/
abbrev TimeSorted (l : List TimePoint) : Prop :=
  l.Pairwise (fun p q => p.time ≤ q.time)

theorem insertLE_perm (p : TimePoint) (l : List TimePoint) : insertLE p l ~ p :: l := by
  induction l with
  | nil => simp [insertLE]
  | cons q rest ih =>
    by_cases h : q.time ≤ p.time
    · simp only [insertLE, if_pos h]
      exact (ih.cons q).trans (List.Perm.swap p q rest)
    · simp [insertLE, if_neg h]

theorem timeSorted_insertLE (p : TimePoint) {l : List TimePoint} (h : TimeSorted l) :
    TimeSorted (insertLE p l) := by
  induction l with
  | nil => simp [insertLE]
  | cons q rest ih =>
    obtain ⟨hq, hrest⟩ := List.pairwise_cons.mp h
    by_cases hle : q.time ≤ p.time
    · simp only [insertLE, if_pos hle]
      refine List.pairwise_cons.mpr ⟨?_, ih hrest⟩
      intro x hx
      rcases List.mem_cons.mp ((insertLE_perm p rest).mem_iff.mp hx) with rfl | hx'
      · exact hle
      · exact hq x hx'
    · simp only [insertLE, if_neg hle]
      refine List.pairwise_cons.mpr ⟨?_, h⟩
      intro x hx
      rcases List.mem_cons.mp hx with rfl | hx'
      · exact le_of_not_le hle
      · exact le_trans (le_of_not_le hle) (hq x hx')

theorem foldl_insertLE_sorted (l : List TimePoint) :
    ∀ acc, TimeSorted acc → TimeSorted (l.foldl (fun acc p => insertLE p acc) acc) := by
  induction l with
  | nil => intro acc h; simpa using h
  | cons p rest ih => intro acc h; exact ih _ (timeSorted_insertLE p h)

/-- The sort model always produces an ascending sequence. -/
theorem sortByTime_sorted (l : List TimePoint) : TimeSorted (sortByTime l) :=
  foldl_insertLE_sorted l [] (by simp)

theorem foldl_insertLE_perm (l : List TimePoint) :
    ∀ acc, l.foldl (fun acc p => insertLE p acc) acc ~ acc ++ l := by
  induction l with
  | nil => intro acc; simp
  | cons p rest ih =>
    intro acc
    calc rest.foldl (fun acc p => insertLE p acc) (insertLE p acc)
        ~ insertLE p acc ++ rest := ih _
      _ ~ (p :: acc) ++ rest := (insertLE_perm p acc).append_right rest
      _ ~ acc ++ p :: rest := List.perm_middle.symm

/-- The sort model permutes its input. -/
theorem sortByTime_perm (l : List TimePoint) : sortByTime l ~ l := by
  simpa [sortByTime] using foldl_insertLE_perm l []

theorem insertLE_of_forall_le {p : TimePoint} : ∀ {l : List TimePoint},
    (∀ q ∈ l, q.time ≤ p.time) → insertLE p l = l ++ [p] := by
  intro l
  induction l with
  | nil => intro _; rfl
  | cons q rest ih =>
    intro h
    have hq : q.time ≤ p.time := h q (List.mem_cons_self q rest)
    simp only [insertLE, if_pos hq, List.cons_append, List.cons.injEq, true_and]
    exact ih fun x hx => h x (List.mem_cons_of_mem q hx)

theorem sortByTime_append_singleton (l : List TimePoint) (p : TimePoint) :
    sortByTime (l ++ [p]) = insertLE p (sortByTime l) := by
  simp [sortByTime, List.foldl_append]

/-- Sorting an already ascending sequence is the identity. -/
theorem sortByTime_eq_of_sorted : ∀ {l : List TimePoint}, TimeSorted l → sortByTime l = l := by
  intro l
  induction l using List.reverseRecOn with
  | nil => intro _; rfl
  | append_singleton l' p ih =>
    intro h
    obtain ⟨h1, _, h3⟩ := List.pairwise_append.mp h
    rw [sortByTime_append_singleton, ih h1]
    exact insertLE_of_forall_le fun q hq => h3 q hq p (List.mem_singleton_self p)

/-- Stability of the insertion step on ascending input: among the elements of
a fixed time value, the inserted element lands last. -/
theorem insertLE_filter (t : ℚ) (p : TimePoint) : ∀ {l : List TimePoint}, TimeSorted l →
    (insertLE p l).filter (fun q => decide (q.time = t)) =
      l.filter (fun q => decide (q.time = t)) ++ if p.time = t then [p] else [] := by
  intro l
  induction l with
  | nil =>
    intro _
    by_cases hp : p.time = t <;> simp [insertLE, hp]
  | cons q rest ih =>
    intro h
    obtain ⟨hq, hrest⟩ := List.pairwise_cons.mp h
    by_cases hle : q.time ≤ p.time
    · simp only [insertLE, if_pos hle, List.filter_cons]
      rw [ih hrest]
      by_cases hqt : q.time = t <;> simp [hqt]
    · have hpq : p.time < q.time := lt_of_not_le hle
      simp only [insertLE, if_neg hle]
      by_cases hpt : p.time = t
      · have hnil : (q :: rest).filter (fun q => decide (q.time = t)) = [] := by
          refine List.filter_eq_nil_iff.mpr ?_
          intro x hx
          have hqx : q.time ≤ x.time := by
            rcases List.mem_cons.mp hx with rfl | hx'
            · exact le_refl _
            · exact hq x hx'
          simp only [decide_eq_true_eq]
          intro hxt
          exact absurd (hxt ▸ hqx) (not_le.mpr (hpt ▸ hpq))
        simp [List.filter_cons, hpt, hnil]
      · simp [List.filter_cons, hpt]

/-- Two permuted sequences that are both strictly ascending in time are
equal. -/
theorem timeStrictSorted_perm_eq : ∀ {l₁ l₂ : List TimePoint}, l₁ ~ l₂ →
    l₁.Pairwise (fun p q => p.time < q.time) →
    l₂.Pairwise (fun p q => p.time < q.time) → l₁ = l₂ := by
  intro l₁
  induction l₁ with
  | nil =>
    intro l₂ hp _ _
    exact (List.Perm.eq_nil hp.symm).symm
  | cons a t₁ ih =>
    intro l₂ hp h1 h2
    cases l₂ with
    | nil => exact absurd (List.Perm.eq_nil hp) (by simp)
    | cons b t₂ =>
      obtain ⟨ha1, ht₁⟩ := List.pairwise_cons.mp h1
      obtain ⟨hb1, ht₂⟩ := List.pairwise_cons.mp h2
      have hab : a = b := by
        by_contra hne
        have hbmem : b ∈ t₁ := by
          rcases List.mem_cons.mp (hp.mem_iff.mpr (List.mem_cons_self b t₂)) with hh | hh
          · exact absurd hh (fun hh' => hne hh'.symm)
          · exact hh
        have hamem : a ∈ t₂ := by
          rcases List.mem_cons.mp (hp.mem_iff.mp (List.mem_cons_self a t₁)) with hh | hh
          · exact absurd hh hne
          · exact hh
        exact absurd ((ha1 b hbmem).trans (hb1 a hamem)) (lt_irrefl _)
      subst hab
      rw [ih hp.cons_inv ht₁ ht₂]

/-- On inputs with pairwise distinct times, sorting is a function of the
underlying multiset only. -/
theorem sortByTime_eq_of_perm {l l' : List TimePoint} (hp : l ~ l')
    (hne : l.Pairwise (fun p q => p.time ≠ q.time)) :
    sortByTime l = sortByTime l' := by
  have hsym : ∀ {x y : TimePoint}, x.time ≠ y.time → y.time ≠ x.time := fun hh => hh.symm
  have hne₁ : (sortByTime l).Pairwise (fun p q => p.time ≠ q.time) :=
    ((sortByTime_perm l).pairwise_iff hsym).mpr hne
  have hne₂ : (sortByTime l').Pairwise (fun p q => p.time ≠ q.time) :=
    ((sortByTime_perm l').pairwise_iff hsym).mpr ((hp.pairwise_iff hsym).mp hne)
  apply timeStrictSorted_perm_eq
  · exact (sortByTime_perm l).trans (hp.trans (sortByTime_perm l').symm)
  · exact ((sortByTime_sorted l).and hne₁).imp fun hh => lt_of_le_of_ne hh.1 hh.2
  · exact ((sortByTime_sorted l').and hne₂).imp fun hh => lt_of_le_of_ne hh.1 hh.2

/-- The reduce of the source, `reduce((total, c) => total + c.duration, 0)`,
computes the sum of the durations. -/
theorem foldl_add_duration (l : List DurationPair) :
    ∀ a : ℚ, l.foldl (fun total current => total + current.duration) a =
      a + (l.map DurationPair.duration).sum := by
  induction l with
  | nil => intro a; simp
  | cons d rest ih =>
    intro a
    simp [ih, add_assoc]

/-- The head of an ascending sequence carries the minimum time. -/
theorem timeSorted_head_le {p : TimePoint} {l : List TimePoint}
    (h : TimeSorted (p :: l)) : ∀ q ∈ p :: l, p.time ≤ q.time := by
  intro q hq
  rcases List.mem_cons.mp hq with rfl | hq'
  · exact le_refl _
  · exact (List.pairwise_cons.mp h).1 q hq'

/-- The last element of an ascending sequence carries the maximum time. -/
theorem timeSorted_le_getLast : ∀ {l : List TimePoint} (hne : l ≠ []), TimeSorted l →
    ∀ q ∈ l, q.time ≤ (l.getLast hne).time := by
  intro l
  induction l with
  | nil => intro hne; exact absurd rfl hne
  | cons p rest ih =>
    intro hne h q hq
    cases rest with
    | nil =>
      rcases List.mem_cons.mp hq with rfl | h'
      · exact le_refl _
      · exact absurd h' (List.not_mem_nil q)
    | cons r rest' =>
      have hgl : (p :: r :: rest').getLast hne =
          (r :: rest').getLast (List.cons_ne_nil r rest') :=
        List.getLast_cons (List.cons_ne_nil r rest')
      rcases List.mem_cons.mp hq with rfl | hq'
      · rw [hgl]
        exact (List.pairwise_cons.mp h).1 _ (List.getLast_mem (List.cons_ne_nil r rest'))
      · rw [hgl]
        exact ih (List.cons_ne_nil r rest') (List.pairwise_cons.mp h).2 q hq'

/-- Appending one element to an ascending sequence and re-sorting keeps every
equal-time class in order, with the new element last in its class. -/
theorem filter_sortByTime_append (l : List TimePoint) (p : TimePoint) (h : TimeSorted l)
    (t : ℚ) :
    (sortByTime (l ++ [p])).filter (fun q => decide (q.time = t)) =
      l.filter (fun q => decide (q.time = t)) ++ (if p.time = t then [p] else []) := by
  rw [sortByTime_append_singleton, sortByTime_eq_of_sorted h, insertLE_filter t p h]

theorem filter_time_cons (t : ℚ) (p : TimePoint) (l : List TimePoint) :
    (p :: l).filter (fun q => decide (q.time = t)) =
      (if p.time = t then [p] else []) ++ l.filter (fun q => decide (q.time = t)) := by
  by_cases hh : p.time = t <;> simp [List.filter_cons, hh]

/-- Each creation-path step preserves the ordering invariant. -/
theorem applyRA_sorted (timePoints : List TimePoint) (op : RAOp) (h : TimeSorted timePoints) :
    TimeSorted (applyRA timePoints op) := by
  cases op with
  | record now t0 => exact sortByTime_sorted _
  | add adv now label t0 =>
    cases adv with
    | true => exact sortByTime_sorted _
    | false =>
      rcases timePoints with _ | ⟨p0, _ | ⟨p1, _ | ⟨p2, rest⟩⟩⟩
      · simp [applyRA, addOp]
      · exact sortByTime_sorted _
      · exact sortByTime_sorted _
      · exact h

/-- Each creation-path step keeps every equal-time class a subsequence of
what it was, extended at most by the newly created point at the end. -/
theorem applyRA_filter (timePoints : List TimePoint) (op : RAOp) (h : TimeSorted timePoints)
    (t : ℚ) :
    (applyRA timePoints op).filter (fun q => decide (q.time = t)) <+
      timePoints.filter (fun q => decide (q.time = t)) ++
        (if (newPointRA timePoints op).time = t then [newPointRA timePoints op] else []) := by
  cases op with
  | record now t0 =>
    show (sortByTime (timePoints ++ [recordPoint now t0 timePoints])).filter _ <+ _
    rw [filter_sortByTime_append _ _ h]
    exact List.Sublist.refl _
  | add adv now label t0 =>
    cases adv with
    | true =>
      show (sortByTime (timePoints ++ [addPoint now label t0 timePoints])).filter _ <+ _
      rw [filter_sortByTime_append _ _ h]
      exact List.Sublist.refl _
    | false =>
      rcases timePoints with _ | ⟨p0, _ | ⟨p1, _ | ⟨p2, rest⟩⟩⟩
      · show ([addPoint now label t0 []].filter _) <+ ([].filter _) ++ _
        rw [filter_time_cons]
        simp only [List.filter_nil, List.append_nil, List.nil_append]
        exact List.Sublist.refl _
      · show (sortByTime ([p0] ++ [addPoint now label t0 [p0]])).filter _ <+ _
        rw [filter_sortByTime_append _ _ (List.pairwise_singleton _ p0)]
        exact List.Sublist.refl _
      · show (sortByTime ([p0] ++ [addPoint now label t0 [p0, p1]])).filter _ <+ _
        rw [filter_sortByTime_append _ _ (List.pairwise_singleton _ p0)]
        refine List.Sublist.append ?_ (List.Sublist.refl _)
        exact List.Sublist.filter _ (List.Sublist.cons₂ p0 (List.nil_sublist [p1]))
      · exact List.sublist_append_left _ _

/-- Invariant of a creation-path trace from any ascending start state:
ordering is preserved, and each equal-time class of the store is a
subsequence of that class of the start state followed by the created
points in creation order. -/
theorem foldRA_sorted_filter : ∀ (ops : List RAOp) (timePoints : List TimePoint),
    TimeSorted timePoints →
    TimeSorted (ops.foldl applyRA timePoints) ∧
    ∀ t : ℚ, (ops.foldl applyRA timePoints).filter (fun q => decide (q.time = t)) <+
      timePoints.filter (fun q => decide (q.time = t)) ++
        (creationsRA timePoints ops).filter (fun q => decide (q.time = t)) := by
  intro ops
  induction ops with
  | nil =>
    intro timePoints h
    refine ⟨h, fun t => ?_⟩
    simp only [List.foldl_nil, creationsRA, List.filter_nil, List.append_nil]
    exact List.Sublist.refl _
  | cons op rest ih =>
    intro timePoints h
    obtain ⟨h3, h4⟩ := ih (applyRA timePoints op) (applyRA_sorted timePoints op h)
    refine ⟨h3, fun t => ?_⟩
    have step := applyRA_filter timePoints op h t
    have chain := (h4 t).trans (List.Sublist.append step (List.Sublist.refl _))
    simp only [List.foldl_cons] at chain ⊢
    rw [creationsRA, filter_time_cons, ← List.append_assoc]
    exact chain

/-- `pairUp` on a short list (fewer than two elements) yields no pairs. -/
theorem pairUp_short {l : List TimePoint} (h : l.length < 2) : pairUp l = [] := by
  match l with
  | [] => rfl
  | [_] => rfl
  | _ :: _ :: _ =>
    exfalso
    simp only [List.length_cons] at h
    omega

/-- `pairUp` produces exactly `⌊n/2⌋` pairs. -/
theorem pairUp_length : ∀ l : List TimePoint, (pairUp l).length = l.length / 2
  | [] => by simp [pairUp]
  | [_] => by simp [pairUp]
  | p0 :: p1 :: rest => by
    simp only [pairUp, List.length_cons, pairUp_length rest]
    omega

/-- The `i`-th pair joins the elements at positions `2i` and `2i+1`. -/
theorem pairUp_getElem? : ∀ (l : List TimePoint) (i : ℕ) (p0 p1 : TimePoint),
    l[2 * i]? = some p0 → l[2 * i + 1]? = some p1 →
    (pairUp l)[i]? = some { startId := p0.id, endId := p1.id, duration := p1.time - p0.time }
  | [], i, p0, p1 => by simp
  | [q], i, p0, p1 => by
    intro _ h2
    rw [List.getElem?_eq_none (by simp only [List.length_singleton]; omega)] at h2
    exact absurd h2 (by simp)
  | q0 :: q1 :: rest, 0, p0, p1 => by
    intro h1 h2
    simp at h1 h2
    subst h1; subst h2
    simp [pairUp]
  | q0 :: q1 :: rest, i + 1, p0, p1 => by
    intro h1 h2
    have e : 2 * (i + 1) = (2 * i + 1) + 1 := by omega
    rw [e, List.getElem?_cons_succ, List.getElem?_cons_succ] at h1
    rw [e, List.getElem?_cons_succ, List.getElem?_cons_succ] at h2
    simp only [pairUp, List.getElem?_cons_succ]
    exact pairUp_getElem? rest i p0 p1 h1 h2

/-- C1: `pairDurations` sorts the snapshot ascending by time, partitions it
into consecutive non-overlapping pairs `(0,1), (2,3), …` with
`duration = points[i+1].time - points[i].time`, dropping a trailing unpaired
point when the count is odd, and the result is independent of insertion
order (permutation) when times are pairwise distinct; points with times
`[1, 3, 5, 9]` (scrambled insertion order) yield exactly the pairs with
durations 2 and 4, and times `[0, 2, 5]` yield exactly one pair with
duration 2. -/
theorem C1_pair_durations :
    (∀ l l' : List TimePoint, l ~ l' → l.Pairwise (fun p q => p.time ≠ q.time) →
        calculateDurations l = calculateDurations l')
  ∧ (∀ l : List TimePoint, (calculateDurations l).length = l.length / 2)
  ∧ (∀ (l : List TimePoint) (i : ℕ) (p0 p1 : TimePoint),
        (sortByTime l)[2 * i]? = some p0 → (sortByTime l)[2 * i + 1]? = some p1 →
        (calculateDurations l)[i]? =
          some { startId := p0.id, endId := p1.id, duration := p1.time - p0.time })
  ∧ calculateDurations [⟨"a", 3, ""⟩, ⟨"b", 9, ""⟩, ⟨"c", 1, ""⟩, ⟨"d", 5, ""⟩] =
      [⟨"c", "a", 2⟩, ⟨"d", "b", 4⟩]
  ∧ calculateDurations [⟨"x", 2, ""⟩, ⟨"y", 0, ""⟩, ⟨"z", 5, ""⟩] = [⟨"y", "x", 2⟩] := by
  refine ⟨?_, ?_, ?_, ?_, ?_⟩
  · intro l l' hp hne
    unfold calculateDurations
    rw [sortByTime_eq_of_perm hp hne]
  · intro l
    unfold calculateDurations
    rw [pairUp_length, (sortByTime_perm l).length_eq]
  · intro l i p0 p1 h1 h2
    exact pairUp_getElem? (sortByTime l) i p0 p1 h1 h2
  · norm_num [calculateDurations, sortByTime, insertLE, pairUp]
  · norm_num [calculateDurations, sortByTime, insertLE, pairUp]

/-- Witness for `C1_pair_durations` at concrete inputs. -/
theorem C1_pair_durations_witness :
    calculateDurations [⟨"a", 1, ""⟩, ⟨"b", 3, ""⟩] =
      calculateDurations [⟨"b", 3, ""⟩, ⟨"a", 1, ""⟩]
  ∧ (calculateDurations [⟨"a", 1, ""⟩, ⟨"b", 3, ""⟩])[0]? =
      some { startId := "a", endId := "b", duration := (3 : ℚ) - 1 } := by
  constructor
  · exact C1_pair_durations.1 _ _ (by decide) (by decide)
  · exact C1_pair_durations.2.2.1 _ 0 ⟨"a", 1, ""⟩ ⟨"b", 3, ""⟩ (by decide) (by decide)

/-- C2: in advanced mode `totalDuration` is the sum of all pair durations
(times `[0, 2, 5, 9]` give 6); in simple mode it is the maximum time minus
the minimum time over the full sequence; and in either mode fewer than 2
points yields exactly 0. -/
theorem C2_total_duration :
    (∀ timePoints : List TimePoint, calculateTotalDuration true timePoints =
        ((calculateDurations timePoints).map DurationPair.duration).sum)
  ∧ calculateTotalDuration true [⟨"a", 0, ""⟩, ⟨"b", 2, ""⟩, ⟨"c", 5, ""⟩, ⟨"d", 9, ""⟩] = 6
  ∧ (∀ timePoints : List TimePoint, 2 ≤ timePoints.length →
      ∃ pmin pmax : TimePoint, pmin ∈ timePoints ∧ pmax ∈ timePoints ∧
        calculateTotalDuration false timePoints = pmax.time - pmin.time ∧
        ∀ q ∈ timePoints, pmin.time ≤ q.time ∧ q.time ≤ pmax.time)
  ∧ (∀ (isAdvancedMode : Bool) (timePoints : List TimePoint), timePoints.length < 2 →
      calculateTotalDuration isAdvancedMode timePoints = 0) := by
  refine ⟨?_, ?_, ?_, ?_⟩
  · intro pts
    by_cases hlen : pts.length < 2
    · have hshort : calculateDurations pts = [] := by
        unfold calculateDurations
        exact pairUp_short (by rw [(sortByTime_perm pts).length_eq]; exact hlen)
      simp [calculateTotalDuration, hlen, hshort]
    · unfold calculateTotalDuration
      rw [if_neg hlen, if_pos rfl, foldl_add_duration, zero_add]
  · norm_num [calculateTotalDuration, calculateDurations, sortByTime, insertLE, pairUp]
  · intro pts h
    have hnil : sortByTime pts ≠ [] := by
      intro hcontra
      have hlen := (sortByTime_perm pts).length_eq
      rw [hcontra] at hlen
      simp at hlen
      omega
    rcases hsort : sortByTime pts with _ | ⟨q, rest⟩
    · exact absurd hsort hnil
    · refine ⟨q, (q :: rest).getLast (List.cons_ne_nil q rest), ?_, ?_, ?_, ?_⟩
      · exact (sortByTime_perm pts).mem_iff.mp (by rw [hsort]; exact List.mem_cons_self q rest)
      · exact (sortByTime_perm pts).mem_iff.mp (by rw [hsort]; exact List.getLast_mem _)
      · unfold calculateTotalDuration
        rw [if_neg (not_lt.mpr h), if_neg (by simp), hsort]
      · intro x hx
        have hx' : x ∈ q :: rest := by
          rw [← hsort]
          exact (sortByTime_perm pts).mem_iff.mpr hx
        have hs : TimeSorted (q :: rest) := hsort ▸ sortByTime_sorted pts
        exact ⟨timeSorted_head_le hs x hx',
          timeSorted_le_getLast (List.cons_ne_nil q rest) hs x hx'⟩
  · intro adv pts hlt
    unfold calculateTotalDuration
    rw [if_pos hlt]

/-- Witness for `C2_total_duration` at concrete inputs. -/
theorem C2_total_duration_witness :
    (∃ pmin pmax : TimePoint,
        pmin ∈ [(⟨"a", 0, "s"⟩ : TimePoint), ⟨"b", 9, "e"⟩] ∧
        pmax ∈ [(⟨"a", 0, "s"⟩ : TimePoint), ⟨"b", 9, "e"⟩] ∧
        calculateTotalDuration false [⟨"a", 0, "s"⟩, ⟨"b", 9, "e"⟩] = pmax.time - pmin.time ∧
        ∀ q ∈ [(⟨"a", 0, "s"⟩ : TimePoint), ⟨"b", 9, "e"⟩],
          pmin.time ≤ q.time ∧ q.time ≤ pmax.time)
  ∧ calculateTotalDuration true [(⟨"a", 1, ""⟩ : TimePoint)] = 0 := by
  constructor
  · exact C2_total_duration.2.2.1 _ (by decide)
  · exact C2_total_duration.2.2.2 true _ (by decide)

/-- One simple-mode `add` never grows the store beyond 2 points. -/
theorem addOp_simple_length_le {timePoints : List TimePoint} (h : timePoints.length ≤ 2)
    (now : ℕ) (label : String) (t : ℚ) :
    (addOp false now label t timePoints).length ≤ 2 := by
  rcases timePoints with _ | ⟨p0, _ | ⟨p1, _ | ⟨p2, rest⟩⟩⟩
  · simp [addOp]
  · show (sortByTime ([p0] ++ [addPoint now label t [p0]])).length ≤ 2
    rw [(sortByTime_perm _).length_eq]
    simp
  · show (sortByTime [p0, addPoint now label t [p0, p1]]).length ≤ 2
    rw [(sortByTime_perm _).length_eq]
    simp
  · exfalso
    simp only [List.length_cons] at h
    omega

/-- C3: starting from the empty store in simple mode, any finite sequence of
`add` calls leaves at most 2 points: the first `add` makes its point the sole
element, the second appends and sorts, and an `add` at 2 points keeps the
count at 2 (replacing a stored point rather than growing the sequence). -/
theorem C3_simple_mode_capacity :
    (∀ calls : List (ℕ × String × ℚ), (runAddsSimple calls).length ≤ 2)
  ∧ (∀ (now : ℕ) (label : String) (t : ℚ),
      addOp false now label t [] = [addPoint now label t []])
  ∧ (∀ (p : TimePoint) (now : ℕ) (label : String) (t : ℚ),
      addOp false now label t [p] = sortByTime ([p] ++ [addPoint now label t [p]]))
  ∧ (∀ timePoints : List TimePoint, timePoints.length = 2 →
      ∀ (now : ℕ) (label : String) (t : ℚ),
        (addOp false now label t timePoints).length = 2) := by
  refine ⟨?_, fun _ _ _ => rfl, fun _ _ _ _ => rfl, ?_⟩
  · intro calls
    have main : ∀ (calls : List (ℕ × String × ℚ)) (start : List TimePoint),
        start.length ≤ 2 →
        (calls.foldl (fun timePoints c => addOp false c.1 c.2.1 c.2.2 timePoints)
            start).length ≤ 2 := by
      intro calls
      induction calls with
      | nil => intro start h; simpa using h
      | cons c rest ih =>
        intro start h
        exact ih _ (addOp_simple_length_le h c.1 c.2.1 c.2.2)
    exact main calls [] (by simp)
  · intro pts h now label t
    rcases pts with _ | ⟨p0, _ | ⟨p1, _ | ⟨p2, rest⟩⟩⟩
    · exact absurd h (by simp)
    · exact absurd h (by simp)
    · show (sortByTime [p0, addPoint now label t [p0, p1]]).length = 2
      rw [(sortByTime_perm _).length_eq]
      rfl
    · exfalso
      simp only [List.length_cons] at h
      omega

/-- Witness for `C3_simple_mode_capacity` at a concrete 2-point store. -/
theorem C3_simple_mode_capacity_witness :
    (addOp false 7 "x" 4 [(⟨"a", 1, ""⟩ : TimePoint), ⟨"b", 2, ""⟩]).length = 2 :=
  C3_simple_mode_capacity.2.2.2 [(⟨"a", 1, ""⟩ : TimePoint), ⟨"b", 2, ""⟩] rfl 7 "x" 4

/-- C4 as stated is false on the code: the state below is reachable (two
simple-mode `add` calls, then an `update` that moves the first point's time
to 6 without re-sorting), holds exactly 2 points, and its minimum-time point
is `⟨"11", 5, "B"⟩` at index 1; a simple-mode `add` of a point at time 4
keeps index 0 (`⟨"10", 6, "A"⟩`, the larger time) and discards the
minimum-time point, so the resulting store is not the previously stored
minimum-time point together with the new point. -/
theorem C4_counterexample :
    (runOps [.add 10 "A" 3, .add 11 "B" 5, .update "10" "A" (some 6)]).timePoints =
      [⟨"10", 6, "A"⟩, ⟨"11", 5, "B"⟩]
  ∧ (⟨"11", 5, "B"⟩ : TimePoint).time < (⟨"10", 6, "A"⟩ : TimePoint).time
  ∧ (runOps [.add 10 "A" 3, .add 11 "B" 5, .update "10" "A" (some 6),
        .add 12 "C" 4]).timePoints = [⟨"12", 4, "C"⟩, ⟨"10", 6, "A"⟩]
  ∧ (⟨"11", 5, "B"⟩ : TimePoint) ∉
      (runOps [.add 10 "A" 3, .add 11 "B" 5, .update "10" "A" (some 6),
        .add 12 "C" 4]).timePoints := by
  decide

/-- C4 (amended): with exactly 2 stored points, a simple-mode `add` keeps the
point at index 0, discards the point at index 1, and sorts in the new point;
whenever the stored pair is ascending (index 0 carries the minimum time —
true of every state reached without `update`), the result is exactly the
previously stored minimum-time point together with the new point, sorted
ascending by time. -/
theorem C4_add_keeps_index_zero (p0 p1 : TimePoint) (now : ℕ) (label : String) (t : ℚ) :
    addOp false now label t [p0, p1] = sortByTime [p0, addPoint now label t [p0, p1]]
  ∧ (p0.time ≤ p1.time →
      (addOp false now label t [p0, p1]) ~ [p0, addPoint now label t [p0, p1]]
      ∧ TimeSorted (addOp false now label t [p0, p1])
      ∧ ∀ q ∈ [p0, p1], p0.time ≤ q.time) := by
  constructor
  · rfl
  · intro hle
    refine ⟨sortByTime_perm _, sortByTime_sorted _, ?_⟩
    intro q hq
    rcases List.mem_cons.mp hq with rfl | hq'
    · exact le_refl _
    · rcases List.mem_cons.mp hq' with rfl | hq''
      · exact hle
      · exact absurd hq'' (List.not_mem_nil q)

/-- Witness for `C4_add_keeps_index_zero` at a concrete ascending store. -/
theorem C4_add_keeps_index_zero_witness :
    addOp false 9 "w" 4 [(⟨"a", 1, ""⟩ : TimePoint), ⟨"b", 2, ""⟩] =
        sortByTime [⟨"a", 1, ""⟩, addPoint 9 "w" 4 [⟨"a", 1, ""⟩, ⟨"b", 2, ""⟩]]
  ∧ ((addOp false 9 "w" 4 [(⟨"a", 1, ""⟩ : TimePoint), ⟨"b", 2, ""⟩]) ~
        [⟨"a", 1, ""⟩, addPoint 9 "w" 4 [⟨"a", 1, ""⟩, ⟨"b", 2, ""⟩]]
      ∧ TimeSorted (addOp false 9 "w" 4 [(⟨"a", 1, ""⟩ : TimePoint), ⟨"b", 2, ""⟩])
      ∧ ∀ q ∈ [(⟨"a", 1, ""⟩ : TimePoint), ⟨"b", 2, ""⟩],
          (⟨"a", 1, ""⟩ : TimePoint).time ≤ q.time) :=
  ⟨(C4_add_keeps_index_zero ⟨"a", 1, ""⟩ ⟨"b", 2, ""⟩ 9 "w" 4).1,
   (C4_add_keeps_index_zero ⟨"a", 1, ""⟩ ⟨"b", 2, ""⟩ 9 "w" 4).2 (by decide)⟩

/-- C5: in simple mode the estimated duration is the total multiplied by the
fixed calibration constant 0.78; for times `[0, 9]` the simple total is 9 and
the estimate is `9 × 0.78 = 7.02` (exactly, hence within tolerance `1e-9`). -/
theorem C5_estimated_duration :
    (∀ timePoints : List TimePoint, 2 ≤ timePoints.length →
        estimatedDuration (calculateTotalDuration false timePoints) =
          calculateTotalDuration false timePoints * 0.78)
  ∧ calculateTotalDuration false [⟨"s", 0, "Start"⟩, ⟨"e", 9, "End"⟩] = 9
  ∧ estimatedDuration (calculateTotalDuration false [⟨"s", 0, "Start"⟩, ⟨"e", 9, "End"⟩]) = 7.02
  ∧ |estimatedDuration (calculateTotalDuration false [⟨"s", 0, "Start"⟩, ⟨"e", 9, "End"⟩]) -
        7.02| ≤ 1 / 1000000000 := by
  have htot : calculateTotalDuration false [⟨"s", 0, "Start"⟩, ⟨"e", 9, "End"⟩] = 9 := by
    norm_num [calculateTotalDuration, sortByTime, insertLE, List.getLast]
  refine ⟨fun _ _ => rfl, htot, ?_, ?_⟩
  · rw [htot]
    norm_num [estimatedDuration]
  · rw [htot]
    norm_num [estimatedDuration]

/-- Witness for `C5_estimated_duration` at a concrete 2-point store. -/
theorem C5_estimated_duration_witness :
    estimatedDuration (calculateTotalDuration false [(⟨"s", 0, ""⟩ : TimePoint), ⟨"e", 9, ""⟩]) =
      calculateTotalDuration false [(⟨"s", 0, ""⟩ : TimePoint), ⟨"e", 9, ""⟩] * 0.78 :=
  C5_estimated_duration.1 _ (by decide)

/-- C6: after every finite `record`/`add` trace from the empty store (each
call in whichever mode is then active, no `update` calls), the store is
ascending by time — every prefix of a trace being itself a trace, this holds
after each call — and the sort is stable: for every time value `t`, the
stored points of time `t` form a subsequence of the points created with time
`t`, taken in creation order, so equal-time points retain their relative
insertion order. -/
theorem C6_sorted_and_stable (ops : List RAOp) :
    TimeSorted (runRA ops)
  ∧ ∀ t : ℚ, (runRA ops).filter (fun q => decide (q.time = t)) <+
      (creationsRA [] ops).filter (fun q => decide (q.time = t)) := by
  obtain ⟨h1, h2⟩ := foldRA_sorted_filter ops [] (by simp)
  refine ⟨h1, fun t => ?_⟩
  simpa [runRA] using h2 t

/-- C7: `update` maps the sequence in place, so it preserves length and
positions (no re-sort); the point at position `i` is unchanged when its id
differs from the target and receives the new label — and the new time only
when one is supplied — when it matches; consequently the updated point is
readable back with exactly the new label and time, and every other point is
unchanged. -/
theorem C7_update_round_trip (uid : String) (label : String) (newTime : Option ℚ)
    (timePoints : List TimePoint) :
    (updateOp uid label newTime timePoints).length = timePoints.length
  ∧ (∀ (i : ℕ) (h1 : i < timePoints.length)
        (h2 : i < (updateOp uid label newTime timePoints).length),
        (updateOp uid label newTime timePoints)[i] =
          if timePoints[i].id = uid then
            { timePoints[i] with label := label, time := newTime.getD timePoints[i].time }
          else timePoints[i])
  ∧ (∀ p ∈ timePoints, p.id = uid →
        { p with label := label, time := newTime.getD p.time } ∈
          updateOp uid label newTime timePoints)
  ∧ (∀ p ∈ timePoints, p.id ≠ uid → p ∈ updateOp uid label newTime timePoints)
  ∧ (updateOp uid label none timePoints).map TimePoint.time =
      timePoints.map TimePoint.time := by
  refine ⟨?_, ?_, ?_, ?_, ?_⟩
  · simp [updateOp]
  · intro i h1 h2
    simp [updateOp]
  · intro p hp hid
    refine List.mem_map.mpr ⟨p, hp, ?_⟩
    simp [hid]
  · intro p hp hid
    refine List.mem_map.mpr ⟨p, hp, ?_⟩
    simp [hid]
  · show (timePoints.map _).map TimePoint.time = _
    rw [List.map_map]
    apply List.map_congr_left
    intro p hp
    by_cases hid : p.id = uid
    · simp [Function.comp, hid]
    · simp [Function.comp, hid]

/-- Witness for `C7_update_round_trip` at a concrete store. -/
theorem C7_update_round_trip_witness :
    ((⟨"b", 7, "L"⟩ : TimePoint) ∈
      updateOp "b" "L" (some 7) [(⟨"a", 1, "x"⟩ : TimePoint), ⟨"b", 2, "y"⟩])
  ∧ ((⟨"a", 1, "x"⟩ : TimePoint) ∈
      updateOp "b" "L" (some 7) [(⟨"a", 1, "x"⟩ : TimePoint), ⟨"b", 2, "y"⟩])
  ∧ (updateOp "b" "L" none [(⟨"a", 1, "x"⟩ : TimePoint), ⟨"b", 2, "y"⟩]).map TimePoint.time =
      [(⟨"a", 1, "x"⟩ : TimePoint), ⟨"b", 2, "y"⟩].map TimePoint.time :=
  ⟨(C7_update_round_trip "b" "L" (some 7)
      [(⟨"a", 1, "x"⟩ : TimePoint), ⟨"b", 2, "y"⟩]).2.2.1 ⟨"b", 2, "y"⟩ (by decide) rfl,
   (C7_update_round_trip "b" "L" (some 7)
      [(⟨"a", 1, "x"⟩ : TimePoint), ⟨"b", 2, "y"⟩]).2.2.2.1 ⟨"a", 1, "x"⟩ (by decide) (by decide),
   (C7_update_round_trip "b" "L" none
      [(⟨"a", 1, "x"⟩ : TimePoint), ⟨"b", 2, "y"⟩]).2.2.2.2⟩

/-- C8: `remove` and `update` with an id that matches no stored point leave
the full point sequence exactly unchanged (silent no-op, no error path in
the model, which is total). -/
theorem C8_unknown_id_noop (uid : String) (label : String) (newTime : Option ℚ)
    (timePoints : List TimePoint) (h : ∀ p ∈ timePoints, p.id ≠ uid) :
    removeOp uid timePoints = timePoints ∧
    updateOp uid label newTime timePoints = timePoints := by
  constructor
  · apply List.filter_eq_self.mpr
    intro p hp
    simpa using h p hp
  · have hfix : ∀ p ∈ timePoints,
        (if p.id = uid then { p with label := label, time := newTime.getD p.time }
          else p) = p := by
      intro p hp
      rw [if_neg (h p hp)]
    exact (List.map_congr_left fun p hp => hfix p hp).trans (List.map_id timePoints)

/-- Witness for `C8_unknown_id_noop` at a concrete store and unknown id. -/
theorem C8_unknown_id_noop_witness :
    removeOp "z" [(⟨"a", 1, ""⟩ : TimePoint)] = [(⟨"a", 1, ""⟩ : TimePoint)] ∧
    updateOp "z" "L" (some 3) [(⟨"a", 1, ""⟩ : TimePoint)] = [(⟨"a", 1, ""⟩ : TimePoint)] :=
  C8_unknown_id_noop "z" "L" (some 3) [(⟨"a", 1, ""⟩ : TimePoint)] (by decide)

/-- C9 fails on the code: both creation paths take the id from
`Date.now().toString()`, so two `add` calls within the same clock
millisecond (modelled by the same `now` value, here 100) reach a store whose
two distinct points carry the identical id `"100"` — the id sequence of the
reachable state is not duplicate-free, contradicting the uniqueness
invariant the specification states. -/
theorem C9_duplicate_ids_reachable :
    (runOps [.add 100 "a" 1, .add 100 "b" 2]).timePoints =
      [⟨"100", 1, "a"⟩, ⟨"100", 2, "b"⟩]
  ∧ ¬ ((runOps [.add 100 "a" 1, .add 100 "b" 2]).timePoints.map TimePoint.id).Nodup := by
  decide

/-- C10: a simple-mode `add` against a store of 3 or more points leaves the
store exactly unchanged (the source falls through every branch without
calling the state setter), and such states are reachable in simple mode,
e.g. by three `record` calls, since the `record` path has no capacity
limit. -/
theorem C10_add_noop_at_three :
    (∀ timePoints : List TimePoint, 3 ≤ timePoints.length →
        ∀ (now : ℕ) (label : String) (t : ℚ),
          addOp false now label t timePoints = timePoints)
  ∧ (runOps [.record 1 1, .record 2 2, .record 3 3]).isAdvancedMode = false
  ∧ 3 ≤ (runOps [.record 1 1, .record 2 2, .record 3 3]).timePoints.length := by
  refine ⟨?_, by decide, by decide⟩
  intro pts h now label t
  rcases pts with _ | ⟨p0, _ | ⟨p1, _ | ⟨p2, rest⟩⟩⟩
  · exfalso; simp only [List.length_nil] at h; omega
  · exfalso; simp only [List.length_cons, List.length_nil] at h; omega
  · exfalso; simp only [List.length_cons, List.length_nil] at h; omega
  · rfl

/-- Witness for `C10_add_noop_at_three` at a concrete 3-point store. -/
theorem C10_add_noop_at_three_witness :
    addOp false 9 "q" 4 [(⟨"a", 1, ""⟩ : TimePoint), ⟨"b", 2, ""⟩, ⟨"c", 3, ""⟩] =
      [(⟨"a", 1, ""⟩ : TimePoint), ⟨"b", 2, ""⟩, ⟨"c", 3, ""⟩] :=
  C10_add_noop_at_three.1 [(⟨"a", 1, ""⟩ : TimePoint), ⟨"b", 2, ""⟩, ⟨"c", 3, ""⟩]
    (by decide) 9 "q" 4
